import Mathlib

/-!
Shallow embedding of the board-validation and move-enumeration engine of
`server.js` (the 10×10 block-mover variant).

Modelling conventions:
* A JS board (`board[r][c]`) is a `List (List Int)`.  JS cell values that are
  not numbers never matter to the engine (every read is compared with `=== 1`
  or `=== 0`), so `Int` cells are a faithful carrier for all comparisons the
  source performs; out-of-range reads yield the default `0`, which compares
  unequal to `1` just as JS `undefined` does.  Every read the source performs
  is either bounds-guarded by `isValidCoord` or ranges over `0..9`, so the
  default is never observable on the source's executed paths.
* JS objects `{r, c}` become the structure `Coord` with `Int` fields
  (neighbour arithmetic `r - 1` can leave `Nat`).
* The JS `Set` keyed by the string `"r,c"` is modelled by a duplicate-free
  list in insertion order: for integer coordinates the string key is
  injective, so set membership is coordinate equality.
* The BFS `while` loop of `countConnectedBlocks` is given explicit fuel
  (`bfsFuel`); the loop performs at most one iteration per enqueued node and
  at most `101` nodes are ever enqueued (the start plus the 100 in-bounds
  cells), so fuel `200` is never exhausted — this is proved, not assumed, in
  `bfsAux_spec` below.
-/

/-- Mirrors `BOARD_SIZE = 10` in the source. -/
def BOARD_SIZE : Nat := 10

/-- Mirrors `BLOCK_COUNT = 10` in the source. -/
def BLOCK_COUNT : Nat := 10

/-- A JS `{r, c}` coordinate object. -/
@[ext] structure Coord where
  r : Int
  c : Int
deriving DecidableEq, Repr, Inhabited

/-- A JS board: an array of rows of numeric cells. -/
abbrev Board := List (List Int)

/-- Mirrors `isValidCoord(r, c)`: `r >= 0 && r < BOARD_SIZE && c >= 0 && c < BOARD_SIZE`. -/
def isValidCoord (r c : Int) : Prop :=
  0 ≤ r ∧ r < (BOARD_SIZE : Int) ∧ 0 ≤ c ∧ c < (BOARD_SIZE : Int)

instance instDecidableIsValidCoord (r c : Int) : Decidable (isValidCoord r c) := by
  unfold isValidCoord; infer_instance

/-- Reading `board[r][c]`; out-of-range reads give `0` (a value `=== 1`-unequal
to `1`, like JS `undefined`).  The source only reads in bounds. -/
def getCell (board : Board) (r c : Int) : Int :=
  (board.getD r.toNat []).getD c.toNat 0

/-- Writing `board[r][c] = v` (used on the working copy `tempBoard` only). -/
def setCell (board : Board) (r c : Int) (v : Int) : Board :=
  board.set r.toNat ((board.getD r.toNat []).set c.toNat v)

/-- Mirrors `findBlocks(board)`: row-major scan collecting all cells `=== 1`. -/
def findBlocks (board : Board) : List Coord :=
  (List.range BOARD_SIZE).flatMap fun (r : Nat) =>
    (List.range BOARD_SIZE).filterMap fun (c : Nat) =>
      if getCell board (r : Int) (c : Int) = 1 then
        some ⟨(r : Int), (c : Int)⟩
      else none

/-- The four orthogonal neighbour objects built in the source
(`{r: r-1, c}`, `{r: r+1, c}`, `{r, c: c-1}`, `{r, c: c+1}`, in that order). -/
def neighborsOf (p : Coord) : List Coord :=
  [⟨p.r - 1, p.c⟩, ⟨p.r + 1, p.c⟩, ⟨p.r, p.c - 1⟩, ⟨p.r, p.c + 1⟩]

/-- One `while` iteration of the BFS in `countConnectedBlocks`, with fuel.
The queue is FIFO (`queue.shift()` pops the head, `queue.push` appends);
`visited` is the JS `Set` as an insertion-ordered duplicate-free list.  The
four neighbours of a cell are pairwise distinct, so filtering them against the
`visited` set at the start of the iteration is equivalent to the source's
sequential check-and-insert. -/
def bfsAux (board : Board) : Nat → List Coord → List Coord → Nat → Nat
  | 0, _, _, count => count
  | _ + 1, [], _, count => count
  | fuel + 1, p :: rest, visited, count =>
    let ns := (neighborsOf p).filter fun q =>
      decide (isValidCoord q.r q.c ∧ getCell board q.r q.c = 1 ∧ q ∉ visited)
    bfsAux board fuel (rest ++ ns) (visited ++ ns) (count + 1)

/-- Fuel for the BFS loop; proved sufficient in `bfsAux_spec`. -/
def bfsFuel : Nat := 200

/-- Mirrors `countConnectedBlocks(board, startNode)`: `0` on a missing start
(`if (!startNode) return 0`), otherwise BFS from the start with the start
pre-seeded into queue and visited set. -/
def countConnectedBlocks (board : Board) (startNode : Option Coord) : Nat :=
  match startNode with
  | none => 0
  | some s => bfsAux board bfsFuel [s] [s] 0

/-- The dimension check of `validateBoard`:
`Array.isArray(board) && board.length === 10 && board.every(r => Array.isArray(r) && r.length === 10)`
(the source tests the negation with `some`).  In this embedding a `Board` is
always an array of arrays, so only the two length conditions remain. -/
def dimsOk (board : Board) : Prop :=
  board.length = BOARD_SIZE ∧ ∀ row ∈ board, row.length = BOARD_SIZE

instance instDecidableDimsOk (board : Board) : Decidable (dimsOk board) := by
  unfold dimsOk; infer_instance

/-- Mirrors `validateBoard(board)`, returning the source's error strings
(`blocks[0]` on a possibly-empty array becomes `List.head?`). -/
def validateBoard (board : Board) : Option String :=
  if ¬ dimsOk board then some "Board must be a 10x10 array."
  else if (findBlocks board).length ≠ BLOCK_COUNT then
    some "Board must have exactly 10 blocks."
  else if countConnectedBlocks board (findBlocks board).head? ≠ BLOCK_COUNT then
    some "All blocks must form a single, continuous shape."
  else none

/-- A move object `{from, to}` pushed by `findAllValidMoves`. -/
structure Move where
  «from» : Coord
  «to» : List Coord
deriving DecidableEq, Repr, Inhabited

/-- Inserting into the JS `Set` of destination keys: appends the coordinate
unless an equal coordinate is already present (string keys of integer
coordinates are injective). -/
def insertDest (l : List Coord) (q : Coord) : List Coord :=
  if q ∈ l then l else l ++ [q]

/-- The destination-collection loop of `findAllValidMoves`: for every
remaining block, every in-bounds orthogonal neighbour that is `=== 0` on the
working copy enters the destination set. -/
def collectDests (temp : Board) (remaining : List Coord) : List Coord :=
  remaining.foldl
    (fun acc ob =>
      (neighborsOf ob).foldl
        (fun acc2 q =>
          if isValidCoord q.r q.c ∧ getCell temp q.r q.c = 0 then insertDest acc2 q
          else acc2)
        acc)
    []

/-- The body of the `for (const block of blocks)` loop of
`findAllValidMoves`, producing the move pushed for `b` (if any): clear `b` on
a working copy, test that the remaining blocks stay one component, collect
destinations, and emit `{from: b, to: dests}` when the destination set is
non-empty. -/
def moveFor (board : Board) (b : Coord) : Option Move :=
  let temp := setCell board b.r b.c 0
  let remaining := findBlocks temp
  if countConnectedBlocks temp remaining.head? = remaining.length then
    let dests := collectDests temp remaining
    if dests.length > 0 then some ⟨b, dests⟩ else none
  else none

/-- Mirrors `findAllValidMoves(board)`: iterate the blocks in row-major order,
pushing each emitted move. -/
def findAllValidMoves (board : Board) : List Move :=
  (findBlocks board).foldl
    (fun allMoves b =>
      match moveFor board b with
      | some m => allMoves ++ [m]
      | none => allMoves)
    []

/-- Applying a chosen relocation, as the spec's closure property words it:
the grid `G` with the move's source cleared and the destination `d` set. -/
def applyMove (board : Board) (src dst : Coord) : Board :=
  setCell (setCell board src.r src.c 0) dst.r dst.c 1

/-- A cell that is in bounds and marked (`=== 1`) on the board. -/
def validMarked (board : Board) (q : Coord) : Prop :=
  isValidCoord q.r q.c ∧ getCell board q.r q.c = 1

instance instDecidableValidMarked (board : Board) (q : Coord) :
    Decidable (validMarked board q) := by
  unfold validMarked; infer_instance

/-- One hop of the BFS exploration: `q` is an orthogonal neighbour of `p`,
in bounds, and marked.  This is exactly the guard under which the source
enqueues `q` (apart from the visited check, which only prevents revisits). -/
def stepRel (board : Board) (p q : Coord) : Prop :=
  q ∈ neighborsOf p ∧ validMarked board q

/-- Edge-reachability through marked cells: the reflexive-transitive closure
of single BFS hops. -/
def reaches (board : Board) (s q : Coord) : Prop :=
  Relation.ReflTransGen (stepRel board) s q

/-! ### Concrete boards used in the scenarios -/

/-- A row of ten zero cells. -/
def zeroRow : List Int := [0, 0, 0, 0, 0, 0, 0, 0, 0, 0]

/-- Scenario 1: a straight line of 10 marked cells in row 0. -/
def lineBoard : Board :=
  [[1, 1, 1, 1, 1, 1, 1, 1, 1, 1],
   zeroRow, zeroRow, zeroRow, zeroRow, zeroRow, zeroRow, zeroRow, zeroRow, zeroRow]

/-- The line of 10 with an additional non-binary cell (value 2) at (5,5). -/
def nonBinaryBoard : Board :=
  [[1, 1, 1, 1, 1, 1, 1, 1, 1, 1],
   zeroRow, zeroRow, zeroRow, zeroRow,
   [0, 0, 0, 0, 0, 2, 0, 0, 0, 0],
   zeroRow, zeroRow, zeroRow, zeroRow]

/-- Scenario 2: only nine marked cells. -/
def nineBlockBoard : Board :=
  [[1, 1, 1, 1, 1, 1, 1, 1, 1, 0],
   zeroRow, zeroRow, zeroRow, zeroRow, zeroRow, zeroRow, zeroRow, zeroRow, zeroRow]

/-- Scenario 3: two disjoint groups of five marked cells each. -/
def twoIslandBoard : Board :=
  [[1, 1, 1, 1, 1, 0, 0, 0, 0, 0],
   zeroRow, zeroRow, zeroRow, zeroRow, zeroRow, zeroRow, zeroRow, zeroRow,
   [1, 1, 1, 1, 1, 0, 0, 0, 0, 0]]

/-- The all-empty board. -/
def emptyBoard : Board := List.replicate 10 zeroRow

/-! ### Heap model for the mutation-freedom (frame) property

JS arrays are mutable objects: `findAllValidMoves` builds its working copy
with `board.map(row => [...row])` — a fresh outer array of fresh row arrays —
and then assigns `tempBoard[block.r][block.c] = 0`.  To state that the
caller's board is never written, rows are given explicit addresses in a store:
a board value is a list of row addresses, and the row copy allocates fresh
addresses.  The only assignment in the source is the one on the working copy;
`validateBoard` performs no assignment at all, so its heap version returns
the store untouched by construction. -/

/-- The store of JS row arrays: contents by address, plus the next fresh
address. -/
structure Heap where
  rows : Nat → List Int
  fresh : Nat

/-- A board object: the addresses of its row arrays. -/
abbrev BoardRef := List Nat

/-- The cell contents currently reachable from a board reference. -/
def readBoard (h : Heap) (br : BoardRef) : Board :=
  br.map h.rows

/-- Allocate a fresh row array holding `row`. -/
def allocRow (h : Heap) (row : List Int) : Heap × Nat :=
  (⟨fun a => if a = h.fresh then row else h.rows a, h.fresh + 1⟩, h.fresh)

/-- `board.map(row => [...row])`: a fresh array of fresh copies of the
current rows. -/
def copyBoard (h : Heap) (br : BoardRef) : Heap × BoardRef :=
  br.foldl
    (fun acc a =>
      let res := allocRow acc.1 (acc.1.rows a)
      (res.1, acc.2 ++ [res.2]))
    (h, [])

/-- `b[r][c] = v`: mutate the row array addressed at index `r` of `br`. -/
def writeCell (h : Heap) (br : BoardRef) (r c : Int) (v : Int) : Heap :=
  ⟨fun x =>
    if x = br.getD r.toNat 0 then (h.rows (br.getD r.toNat 0)).set c.toNat v
    else h.rows x,
   h.fresh⟩

/-- `validateBoard` over the store: a pure read, no write (the source body
contains no assignment). -/
def hValidateBoard (h : Heap) (br : BoardRef) : Option String × Heap :=
  (validateBoard (readBoard h br), h)

/-- The body of the `for (const block of blocks)` loop of
`findAllValidMoves`, at the heap level: copy the board into fresh rows,
clear the block on the copy, and analyse the copy. -/
def hMoveStep (br : BoardRef) (acc : List Move × Heap) (b : Coord) :
    List Move × Heap :=
  let copied := copyBoard acc.2 br
  let h2 := writeCell copied.1 copied.2 b.r b.c 0
  let temp := readBoard h2 copied.2
  let remaining := findBlocks temp
  if countConnectedBlocks temp remaining.head? = remaining.length then
    let dests := collectDests temp remaining
    if dests.length > 0 then (acc.1 ++ [⟨b, dests⟩], h2) else (acc.1, h2)
  else (acc.1, h2)

/-- `findAllValidMoves` over the store: iterate `hMoveStep` over the blocks
of the current board contents. -/
def hFindAllValidMoves (h : Heap) (br : BoardRef) : List Move × Heap :=
  (findBlocks (readBoard h br)).foldl (hMoveStep br) ([], h)

/-- A concrete store holding `lineBoard` in the rows addressed `0..9`. -/
def lineHeap : Heap :=
  ⟨fun a => if a < 10 then lineBoard.getD a [] else [], 10⟩

/-- The board reference for `lineHeap`. -/
def lineBoardRef : BoardRef := List.range 10

/-- All in-bounds coordinates plus a given start cell: a finite bound on the
set of nodes the BFS can ever enqueue. -/
def coordBound (s : Coord) : Finset Coord :=
  insert s
    ((Finset.range 10 ×ˢ Finset.range 10).image fun rc => ⟨(rc.1 : Int), (rc.2 : Int)⟩)

/-! ### Basic lemmas: neighbours and block scanning -/

lemma boardSize_nat : BOARD_SIZE = 10 := rfl

lemma boardSize_int : (BOARD_SIZE : Int) = 10 := rfl

lemma mem_neighborsOf {p q : Coord} :
    q ∈ neighborsOf p ↔
      q = ⟨p.r - 1, p.c⟩ ∨ q = ⟨p.r + 1, p.c⟩ ∨ q = ⟨p.r, p.c - 1⟩ ∨ q = ⟨p.r, p.c + 1⟩ := by
  simp [neighborsOf]

lemma neighborsOf_symm {p q : Coord} (h : q ∈ neighborsOf p) : p ∈ neighborsOf q := by
  rcases mem_neighborsOf.1 h with h | h | h | h <;> subst h <;>
    simp [mem_neighborsOf, Coord.ext_iff]

lemma neighborsOf_ne {p q : Coord} (h : q ∈ neighborsOf p) : q ≠ p := by
  rcases mem_neighborsOf.1 h with h | h | h | h <;> subst h <;>
    simp [Coord.ext_iff]

lemma neighborsOf_nodup (p : Coord) : (neighborsOf p).Nodup := by
  simp [neighborsOf, Coord.ext_iff]
  omega

lemma mem_findBlocks {board : Board} {q : Coord} :
    q ∈ findBlocks board ↔ validMarked board q := by
  unfold findBlocks
  rw [List.mem_flatMap]
  constructor
  · rintro ⟨r, hr, hq⟩
    rw [List.mem_filterMap] at hq
    obtain ⟨c, hc, hcc⟩ := hq
    have hr' : r < 10 := List.mem_range.1 hr
    have hc' : c < 10 := List.mem_range.1 hc
    split at hcc
    case isTrue h1 =>
      injection hcc with hcc
      subst hcc
      refine ⟨⟨?_, ?_, ?_, ?_⟩, h1⟩ <;> simp only [boardSize_int] <;> omega
    case isFalse h1 => exact absurd hcc (by simp)
  · rintro ⟨⟨h0r, hr1, h0c, hc1⟩, h1⟩
    rw [boardSize_int] at hr1 hc1
    have er : (q.r.toNat : Int) = q.r := by omega
    have ec : (q.c.toNat : Int) = q.c := by omega
    refine ⟨q.r.toNat, List.mem_range.2 (by rw [boardSize_nat]; omega), ?_⟩
    refine List.mem_filterMap.2 ⟨q.c.toNat, List.mem_range.2 (by rw [boardSize_nat]; omega), ?_⟩
    rw [er, ec, if_pos h1]

lemma findBlocks_row_eq {board : Board} {r : Nat} {x : Coord}
    (hx : x ∈ (List.range BOARD_SIZE).filterMap fun (c : Nat) =>
      if getCell board (r : Int) (c : Int) = 1 then
        some ⟨(r : Int), (c : Int)⟩
      else none) :
    x.r = (r : Int) := by
  rcases List.mem_filterMap.1 hx with ⟨c, _, hc⟩
  split at hc
  · injection hc with hc
    subst hc
    rfl
  · exact absurd hc (by simp)

lemma findBlocks_nodup (board : Board) : (findBlocks board).Nodup := by
  unfold findBlocks
  rw [List.nodup_flatMap]
  constructor
  · intro r _
    refine List.Nodup.filterMap ?_ (List.nodup_range _)
    intro a a' b hb hb'
    split at hb
    case isTrue =>
      split at hb'
      case isTrue =>
        simp only [Option.mem_def, Option.some.injEq] at hb hb'
        subst hb
        have := congrArg Coord.c hb'
        simp only at this
        omega
      case isFalse => simp at hb'
    case isFalse => simp at hb
  · refine (List.pairwise_lt_range _).imp ?_
    intro a b hab
    intro x hxa hxb
    have h1 := findBlocks_row_eq hxa
    have h2 := findBlocks_row_eq hxb
    rw [h1] at h2
    have : a = b := by omega
    omega

/-! ### Lemmas about `setCell` and dimensions -/

lemma dimsOk_setCell {board : Board} {r c : Int} (v : Int)
    (hd : dimsOk board) (h1 : isValidCoord r c) :
    dimsOk (setCell board r c v) := by
  obtain ⟨hlen, hrows⟩ := hd
  have hlen10 : board.length = 10 := hlen
  obtain ⟨ha, hb, hc', hd'⟩ := h1
  rw [boardSize_int] at hb hd'
  constructor
  · rw [setCell, List.length_set]; exact hlen
  · intro row hrow
    rcases List.mem_or_eq_of_mem_set hrow with h | h
    · exact hrows _ h
    · subst h
      rw [List.length_set]
      have hrn : r.toNat < board.length := by omega
      rw [List.getD_eq_getElem _ _ hrn]
      exact hrows _ (List.getElem_mem hrn)

lemma getD_set_self {α : Type} (l : List α) (i : Nat) (x d : α) (h : i < l.length) :
    (l.set i x).getD i d = x := by
  rw [List.getD_eq_getElem?_getD, List.getElem?_set, if_pos rfl, if_pos h]
  rfl

lemma getD_set_ne {α : Type} (l : List α) {i j : Nat} (x d : α) (h : ¬i = j) :
    (l.set i x).getD j d = l.getD j d := by
  rw [List.getD_eq_getElem?_getD, List.getElem?_set, if_neg h,
    ← List.getD_eq_getElem?_getD]

lemma getD_set_oob {α : Type} (l : List α) {i : Nat} (x d : α)
    (h : ¬i < l.length) (j : Nat) :
    (l.set i x).getD j d = l.getD j d := by
  rw [List.set_eq_of_length_le (by omega)]

lemma getCell_setCell_same {board : Board} {r c : Int} (v : Int)
    (hd : dimsOk board) (h1 : isValidCoord r c) :
    getCell (setCell board r c v) r c = v := by
  obtain ⟨hlen, hrows⟩ := hd
  have hlen10 : board.length = 10 := hlen
  obtain ⟨ha, hb, hc', hd'⟩ := h1
  rw [boardSize_int] at hb hd'
  have hrn : r.toNat < board.length := by omega
  have hrow10 : (board.getD r.toNat []).length = 10 := by
    rw [List.getD_eq_getElem _ _ hrn]
    exact hrows _ (List.getElem_mem hrn)
  have hcn : c.toNat < (board.getD r.toNat []).length := by omega
  unfold getCell setCell
  rw [getD_set_self _ _ _ _ hrn, getD_set_self _ _ _ _ hcn]

lemma getCell_setCell_other {board : Board} {r c r' c' : Int} (v : Int)
    (hne : ¬(r' = r ∧ c' = c)) (h1 : isValidCoord r c) (h2 : isValidCoord r' c') :
    getCell (setCell board r c v) r' c' = getCell board r' c' := by
  obtain ⟨ha, hb, hc1, hd1⟩ := h1
  obtain ⟨ha', hb', hc1', hd1'⟩ := h2
  rw [boardSize_int] at hb hd1 hb' hd1'
  unfold getCell setCell
  by_cases hrr : r.toNat = r'.toNat
  · have hreq : r' = r := by omega
    subst hreq
    have hcc : ¬(c.toNat = c'.toNat) := by
      intro h
      exact hne ⟨rfl, by omega⟩
    by_cases hlt : r'.toNat < board.length
    · rw [hrr, getD_set_self _ _ _ _ (hrr ▸ hlt)]
      exact getD_set_ne _ _ _ hcc
    · rw [getD_set_oob _ _ _ (by omega) _]
  · rw [getD_set_ne _ _ _ hrr]

/-! ### Reachability basics -/

lemma reaches_validMarked {board : Board} {s q : Coord} (h : reaches board s q) :
    q = s ∨ validMarked board q := by
  induction h with
  | refl => exact Or.inl rfl
  | tail _ hstep _ => exact Or.inr hstep.2

lemma reaches_symm {board : Board} {s q : Coord} (hs : validMarked board s)
    (h : reaches board s q) : reaches board q s := by
  induction h with
  | refl => exact Relation.ReflTransGen.refl
  | tail hab hstep ih =>
    refine Relation.ReflTransGen.head ⟨neighborsOf_symm hstep.1, ?_⟩ ih
    rcases reaches_validMarked hab with rfl | h
    · exact hs
    · exact h

lemma reaches_closed {board : Board} (S : Coord → Prop)
    (hcl : ∀ p q, S p → stepRel board p q → S q) {s q : Coord}
    (hs : S s) (h : reaches board s q) : S q := by
  induction h with
  | refl => exact hs
  | tail _ hstep ih => exact hcl _ _ ih hstep

lemma reaches_mono {b1 b2 : Board}
    (hmono : ∀ x, validMarked b1 x → validMarked b2 x) {p q : Coord}
    (h : reaches b1 p q) : reaches b2 p q := by
  refine Relation.ReflTransGen.mono ?_ h
  intro a b hab
  exact ⟨hab.1, hmono _ hab.2⟩

/-! ### The BFS loop: termination within fuel and characterisation -/

lemma card_coordBound (s : Coord) : (coordBound s).card ≤ 101 := by
  unfold coordBound
  refine le_trans (Finset.card_insert_le _ _) ?_
  have h1 : ((Finset.range 10 ×ˢ Finset.range 10).image
      fun rc : Nat × Nat => (⟨(rc.1 : Int), (rc.2 : Int)⟩ : Coord)).card ≤ 100 := by
    refine le_trans Finset.card_image_le ?_
    rw [Finset.card_product, Finset.card_range]
  omega

lemma start_mem_coordBound (s : Coord) : s ∈ coordBound s :=
  Finset.mem_insert_self _ _

lemma mem_coordBound_of_validMarked {board : Board} {q : Coord} (s : Coord)
    (h : validMarked board q) : q ∈ coordBound s := by
  obtain ⟨⟨h1, h2, h3, h4⟩, _⟩ := h
  rw [boardSize_int] at h2 h4
  refine Finset.mem_insert_of_mem ?_
  refine Finset.mem_image.2 ⟨⟨q.r.toNat, q.c.toNat⟩, ?_, ?_⟩
  · rw [Finset.mem_product]
    constructor <;> rw [Finset.mem_range] <;> omega
  · ext <;> simp <;> omega

lemma length_le_of_nodup_subset {l : List Coord} {t : Finset Coord}
    (hn : l.Nodup) (hsub : ∀ q ∈ l, q ∈ t) : l.length ≤ t.card := by
  rw [← List.toFinset_card_of_nodup hn]
  refine Finset.card_le_card ?_
  intro q hq
  exact hsub q (List.mem_toFinset.1 hq)

lemma bfsAux_spec (board : Board) (s : Coord) :
    ∀ (fuel : Nat) (queue visited : List Coord) (count : Nat),
      visited.Nodup →
      (∀ q ∈ queue, q ∈ visited) →
      count + queue.length = visited.length →
      (∀ q ∈ visited, reaches board s q) →
      (∀ p ∈ visited, p ∉ queue → ∀ q, stepRel board p q → q ∈ visited) →
      (∀ q ∈ visited, q ∈ coordBound s) →
      queue.length + (101 - visited.length) ≤ fuel →
      ∃ V : List Coord,
        V.Nodup ∧ (∀ q ∈ visited, q ∈ V) ∧ (∀ q ∈ V, reaches board s q) ∧
        (∀ p ∈ V, ∀ q, stepRel board p q → q ∈ V) ∧
        bfsAux board fuel queue visited count = V.length := by
  intro fuel
  induction fuel with
  | zero =>
    intro queue visited count hnd hqv hcnt hreach hclosed hbound hfuel
    have hq0 : queue = [] := by
      cases queue with
      | nil => rfl
      | cons a l =>
        rw [List.length_cons] at hfuel
        omega
    subst hq0
    have hcount : count = visited.length := by simpa using hcnt
    refine ⟨visited, hnd, fun q h => h, hreach, ?_, ?_⟩
    · intro p hp q hstep
      exact hclosed p hp (by simp) q hstep
    · simp [bfsAux, hcount]
  | succ fuel ih =>
    intro queue visited count hnd hqv hcnt hreach hclosed hbound hfuel
    cases queue with
    | nil =>
      have hcount : count = visited.length := by simpa using hcnt
      refine ⟨visited, hnd, fun q h => h, hreach, ?_, ?_⟩
      · intro p hp q hstep
        exact hclosed p hp (by simp) q hstep
      · simp [bfsAux, hcount]
    | cons p rest =>
      let ns := (neighborsOf p).filter fun q =>
        decide (isValidCoord q.r q.c ∧ getCell board q.r q.c = 1 ∧ q ∉ visited)
      have heq : bfsAux board (fuel + 1) (p :: rest) visited count
          = bfsAux board fuel (rest ++ ns) (visited ++ ns) (count + 1) := rfl
      have hnsP : ∀ q ∈ ns, q ∈ neighborsOf p ∧ validMarked board q ∧ q ∉ visited := by
        intro q hq
        have h := List.mem_filter.1 hq
        rw [decide_eq_true_eq] at h
        exact ⟨h.1, ⟨h.2.1, h.2.2.1⟩, h.2.2.2⟩
      have hnsC : ∀ q, stepRel board p q → q ∉ visited → q ∈ ns := by
        intro q hstep hnv
        refine List.mem_filter.2 ⟨hstep.1, ?_⟩
        rw [decide_eq_true_eq]
        exact ⟨hstep.2.1, hstep.2.2, hnv⟩
      have hns_nodup : ns.Nodup := (neighborsOf_nodup p).filter _
      have hnd' : (visited ++ ns).Nodup :=
        List.Nodup.append hnd hns_nodup (fun a ha hb => (hnsP a hb).2.2 ha)
      have hp_vis : p ∈ visited := hqv p (List.mem_cons_self _ _)
      have hreach_p : reaches board s p := hreach p hp_vis
      have hqv' : ∀ q ∈ rest ++ ns, q ∈ visited ++ ns := by
        intro q hq
        rcases List.mem_append.1 hq with h | h
        · exact List.mem_append.2 (Or.inl (hqv q (List.mem_cons_of_mem _ h)))
        · exact List.mem_append.2 (Or.inr h)
      have hcnt' : (count + 1) + (rest ++ ns).length = (visited ++ ns).length := by
        rw [List.length_cons] at hcnt
        simp only [List.length_append]
        omega
      have hreach' : ∀ q ∈ visited ++ ns, reaches board s q := by
        intro q hq
        rcases List.mem_append.1 hq with h | h
        · exact hreach q h
        · exact Relation.ReflTransGen.tail hreach_p ⟨(hnsP q h).1, (hnsP q h).2.1⟩
      have hclosed' : ∀ p' ∈ visited ++ ns, p' ∉ rest ++ ns →
          ∀ q', stepRel board p' q' → q' ∈ visited ++ ns := by
        intro p' hp' hnin q' hstep
        rcases List.mem_append.1 hp' with h | h
        · by_cases hpp : p' = p
          · subst hpp
            by_cases hq'v : q' ∈ visited
            · exact List.mem_append.2 (Or.inl hq'v)
            · exact List.mem_append.2 (Or.inr (hnsC q' hstep hq'v))
          · have hnq : p' ∉ p :: rest := by
              intro hmem
              rcases List.mem_cons.1 hmem with h1 | h1
              · exact hpp h1
              · exact hnin (List.mem_append.2 (Or.inl h1))
            exact List.mem_append.2 (Or.inl (hclosed p' h hnq q' hstep))
        · exact absurd (List.mem_append.2 (Or.inr h)) hnin
      have hbound' : ∀ q ∈ visited ++ ns, q ∈ coordBound s := by
        intro q hq
        rcases List.mem_append.1 hq with h | h
        · exact hbound q h
        · exact mem_coordBound_of_validMarked s (hnsP q h).2.1
      have hlen101 : (visited ++ ns).length ≤ 101 :=
        le_trans (length_le_of_nodup_subset hnd' hbound') (card_coordBound s)
      have hfuel' : (rest ++ ns).length + (101 - (visited ++ ns).length) ≤ fuel := by
        rw [List.length_cons] at hfuel
        simp only [List.length_append] at hlen101 ⊢
        omega
      obtain ⟨V, hV1, hV2, hV3, hV4, hV5⟩ :=
        ih (rest ++ ns) (visited ++ ns) (count + 1) hnd' hqv' hcnt' hreach' hclosed'
          hbound' hfuel'
      exact ⟨V, hV1, fun q hq => hV2 q (List.mem_append.2 (Or.inl hq)), hV3, hV4,
        heq.trans hV5⟩

lemma countConnected_spec (board : Board) (s : Coord) :
    ∃ V : List Coord, V.Nodup ∧ (∀ q, q ∈ V ↔ reaches board s q) ∧
      countConnectedBlocks board (some s) = V.length := by
  obtain ⟨V, h1, h2, h3, h4, h5⟩ :=
    bfsAux_spec board s bfsFuel [s] [s] 0
      (List.nodup_singleton s)
      (fun q hq => hq)
      (by simp)
      (fun q hq => by
        rw [List.mem_singleton] at hq
        subst hq
        exact Relation.ReflTransGen.refl)
      (fun p hp hnp q hstep => absurd hp hnp)
      (fun q hq => by
        rw [List.mem_singleton] at hq
        subst hq
        exact start_mem_coordBound q)
      (by simp only [bfsFuel, List.length_singleton]; omega)
  refine ⟨V, h1, ?_, h5⟩
  intro q
  constructor
  · exact h3 q
  · intro hr
    have hsV : s ∈ V := h2 s (List.mem_singleton_self s)
    exact reaches_closed (fun x => x ∈ V) (fun a b ha hb => h4 a ha b hb) hsV hr

/-! ### Characterising `validateBoard` and connectivity -/

lemma validate_none_iff (board : Board) :
    validateBoard board = none ↔
      dimsOk board ∧ (findBlocks board).length = BLOCK_COUNT ∧
        countConnectedBlocks board (findBlocks board).head? = BLOCK_COUNT := by
  unfold validateBoard
  split_ifs with h1 h2 h3 <;> simp_all

lemma count_head_eq_length_iff {board : Board} {b0 : Coord} {rest : List Coord}
    (hblocks : findBlocks board = b0 :: rest) :
    countConnectedBlocks board (some b0) = (findBlocks board).length ↔
      ∀ p ∈ findBlocks board, ∀ q ∈ findBlocks board, reaches board p q := by
  have hb0 : b0 ∈ findBlocks board := by
    rw [hblocks]; exact List.mem_cons_self _ _
  have hb0m : validMarked board b0 := mem_findBlocks.1 hb0
  obtain ⟨V, hVnd, hViff, hVcnt⟩ := countConnected_spec board b0
  have hVsub : ∀ q ∈ V, q ∈ findBlocks board := by
    intro q hq
    rcases reaches_validMarked ((hViff q).1 hq) with rfl | h
    · exact hb0
    · exact mem_findBlocks.2 h
  constructor
  · intro hcnt p hp q hq
    have hcard : (findBlocks board).toFinset.card ≤ V.toFinset.card := by
      rw [List.toFinset_card_of_nodup hVnd,
        List.toFinset_card_of_nodup (findBlocks_nodup board)]
      rw [hVcnt] at hcnt
      omega
    have hsub : V.toFinset ⊆ (findBlocks board).toFinset := by
      intro x hx
      exact List.mem_toFinset.2 (hVsub x (List.mem_toFinset.1 hx))
    have heq := Finset.eq_of_subset_of_card_le hsub hcard
    have hall : ∀ x ∈ findBlocks board, reaches board b0 x := by
      intro x hx
      have hxV : x ∈ V.toFinset := by
        rw [heq]; exact List.mem_toFinset.2 hx
      exact (hViff x).1 (List.mem_toFinset.1 hxV)
    exact Relation.ReflTransGen.trans (reaches_symm hb0m (hall p hp)) (hall q hq)
  · intro hmut
    have hfs : V.toFinset = (findBlocks board).toFinset := by
      ext x
      simp only [List.mem_toFinset]
      constructor
      · exact hVsub x
      · intro hx
        exact (hViff x).2 (hmut b0 hb0 x hx)
    rw [hVcnt, ← List.toFinset_card_of_nodup hVnd, hfs,
      List.toFinset_card_of_nodup (findBlocks_nodup board)]

/-! ### Inversion of the move-enumeration loop -/

lemma findAllValidMoves_eq (board : Board) :
    findAllValidMoves board = (findBlocks board).filterMap (moveFor board) := by
  unfold findAllValidMoves
  suffices h : ∀ (l : List Coord) (acc : List Move),
      l.foldl (fun allMoves b => match moveFor board b with
        | some m => allMoves ++ [m]
        | none => allMoves) acc = acc ++ l.filterMap (moveFor board) by
    simpa using h (findBlocks board) []
  intro l
  induction l with
  | nil => intro acc; simp
  | cons b l ih =>
    intro acc
    rw [List.foldl_cons, List.filterMap_cons]
    cases hmb : moveFor board b with
    | none =>
      simp only [hmb]
      rw [ih]
    | some m =>
      simp only [hmb]
      rw [ih]
      simp

lemma mem_findAllValidMoves {board : Board} {m : Move} :
    m ∈ findAllValidMoves board ↔ ∃ b ∈ findBlocks board, moveFor board b = some m := by
  rw [findAllValidMoves_eq, List.mem_filterMap]

lemma moveFor_eq_some {board : Board} {b : Coord} {m : Move}
    (h : moveFor board b = some m) :
    countConnectedBlocks (setCell board b.r b.c 0)
        (findBlocks (setCell board b.r b.c 0)).head?
      = (findBlocks (setCell board b.r b.c 0)).length ∧
    m = ⟨b, collectDests (setCell board b.r b.c 0)
        (findBlocks (setCell board b.r b.c 0))⟩ ∧
    (collectDests (setCell board b.r b.c 0)
        (findBlocks (setCell board b.r b.c 0))).length > 0 := by
  simp only [moveFor] at h
  split_ifs at h with h1 h2
  injection h with h
  exact ⟨h1, h.symm, h2⟩

lemma mem_insertDest {l : List Coord} {x q : Coord} :
    x ∈ insertDest l q ↔ x ∈ l ∨ x = q := by
  unfold insertDest
  split_ifs with h
  · constructor
    · exact Or.inl
    · rintro (h1 | rfl)
      · exact h1
      · exact h
  · simp

lemma mem_foldl_dests (temp : Board) (l : List Coord) (acc : List Coord) (x : Coord) :
    x ∈ l.foldl (fun acc2 q =>
        if isValidCoord q.r q.c ∧ getCell temp q.r q.c = 0 then insertDest acc2 q
        else acc2) acc ↔
      x ∈ acc ∨ ∃ q ∈ l, (isValidCoord q.r q.c ∧ getCell temp q.r q.c = 0) ∧ x = q := by
  induction l generalizing acc with
  | nil => simp
  | cons q l ih =>
    rw [List.foldl_cons, ih]
    split_ifs with h
    · rw [mem_insertDest]
      constructor
      · rintro ((h1 | rfl) | h2)
        · exact Or.inl h1
        · exact Or.inr ⟨x, List.mem_cons_self _ _, h, rfl⟩
        · rcases h2 with ⟨q', hq', hcond, rfl⟩
          exact Or.inr ⟨x, List.mem_cons_of_mem _ hq', hcond, rfl⟩
      · rintro (h1 | ⟨q', hq', hcond, rfl⟩)
        · exact Or.inl (Or.inl h1)
        · rcases List.mem_cons.1 hq' with h3 | h3
          · exact Or.inl (Or.inr h3)
          · exact Or.inr ⟨x, h3, hcond, rfl⟩
    · constructor
      · rintro (h1 | ⟨q', hq', hcond, rfl⟩)
        · exact Or.inl h1
        · exact Or.inr ⟨x, List.mem_cons_of_mem _ hq', hcond, rfl⟩
      · rintro (h1 | ⟨q', hq', hcond, rfl⟩)
        · exact Or.inl h1
        · rcases List.mem_cons.1 hq' with h3 | h3
          · rw [h3] at hcond
            exact absurd hcond h
          · exact Or.inr ⟨x, h3, hcond, rfl⟩

lemma mem_collectDests {temp : Board} {rem : List Coord} {x : Coord} :
    x ∈ collectDests temp rem ↔
      ∃ ob ∈ rem, x ∈ neighborsOf ob ∧ isValidCoord x.r x.c ∧ getCell temp x.r x.c = 0 := by
  unfold collectDests
  suffices h : ∀ (l : List Coord) (acc : List Coord),
      x ∈ l.foldl (fun acc ob =>
        (neighborsOf ob).foldl
          (fun acc2 q =>
            if isValidCoord q.r q.c ∧ getCell temp q.r q.c = 0 then insertDest acc2 q
            else acc2) acc) acc ↔
      x ∈ acc ∨ ∃ ob ∈ l, x ∈ neighborsOf ob ∧ isValidCoord x.r x.c ∧
        getCell temp x.r x.c = 0 by
    simpa using h rem []
  intro l
  induction l with
  | nil => intro acc; simp
  | cons ob l ih =>
    intro acc
    rw [List.foldl_cons, ih, mem_foldl_dests]
    constructor
    · rintro ((h1 | ⟨q, hq, hcond, rfl⟩) | h2)
      · exact Or.inl h1
      · exact Or.inr ⟨ob, List.mem_cons_self _ _, hq, hcond.1, hcond.2⟩
      · rcases h2 with ⟨ob', hob', hrest⟩
        exact Or.inr ⟨ob', List.mem_cons_of_mem _ hob', hrest⟩
    · rintro (h1 | ⟨ob', hob', hn, hv, hc⟩)
      · exact Or.inl (Or.inl h1)
      · rcases List.mem_cons.1 hob' with rfl | hob'
        · exact Or.inl (Or.inr ⟨x, hn, ⟨hv, hc⟩, rfl⟩)
        · exact Or.inr ⟨ob', hob', hn, hv, hc⟩

/-! ### Effect of clearing / setting one cell on the block list -/

lemma mem_findBlocks_setCell_zero {board : Board} {b : Coord}
    (hd : dimsOk board) (hb : b ∈ findBlocks board) {q : Coord} :
    q ∈ findBlocks (setCell board b.r b.c 0) ↔ q ∈ findBlocks board ∧ q ≠ b := by
  have hbm := mem_findBlocks.1 hb
  constructor
  · intro hq
    obtain ⟨hqv, hq1⟩ := mem_findBlocks.1 hq
    by_cases hqb : q = b
    · subst hqb
      rw [getCell_setCell_same 0 hd hbm.1] at hq1
      exact absurd hq1 (by decide)
    · have hne : ¬(q.r = b.r ∧ q.c = b.c) := fun hh => hqb (Coord.ext hh.1 hh.2)
      rw [getCell_setCell_other 0 hne hbm.1 hqv] at hq1
      exact ⟨mem_findBlocks.2 ⟨hqv, hq1⟩, hqb⟩
  · rintro ⟨hq, hqb⟩
    obtain ⟨hqv, hq1⟩ := mem_findBlocks.1 hq
    have hne : ¬(q.r = b.r ∧ q.c = b.c) := fun hh => hqb (Coord.ext hh.1 hh.2)
    refine mem_findBlocks.2 ⟨hqv, ?_⟩
    rw [getCell_setCell_other 0 hne hbm.1 hqv]
    exact hq1

lemma mem_findBlocks_setCell_one {board : Board} {d : Coord}
    (hd : dimsOk board) (hdv : isValidCoord d.r d.c) {q : Coord} :
    q ∈ findBlocks (setCell board d.r d.c 1) ↔ q = d ∨ q ∈ findBlocks board := by
  constructor
  · intro hq
    obtain ⟨hqv, hq1⟩ := mem_findBlocks.1 hq
    by_cases hqd : q = d
    · exact Or.inl hqd
    · have hne : ¬(q.r = d.r ∧ q.c = d.c) := fun hh => hqd (Coord.ext hh.1 hh.2)
      rw [getCell_setCell_other 1 hne hdv hqv] at hq1
      exact Or.inr (mem_findBlocks.2 ⟨hqv, hq1⟩)
  · rintro (rfl | hq)
    · exact mem_findBlocks.2 ⟨hdv, getCell_setCell_same 1 hd hdv⟩
    · obtain ⟨hqv, hq1⟩ := mem_findBlocks.1 hq
      by_cases hqd : q = d
      · subst hqd
        exact mem_findBlocks.2 ⟨hqv, getCell_setCell_same 1 hd hdv⟩
      · have hne : ¬(q.r = d.r ∧ q.c = d.c) := fun hh => hqd (Coord.ext hh.1 hh.2)
        refine mem_findBlocks.2 ⟨hqv, ?_⟩
        rw [getCell_setCell_other 1 hne hdv hqv]
        exact hq1

lemma length_findBlocks_setCell_zero {board : Board} {b : Coord}
    (hd : dimsOk board) (hb : b ∈ findBlocks board) :
    (findBlocks (setCell board b.r b.c 0)).length + 1 = (findBlocks board).length := by
  have h1 := findBlocks_nodup (setCell board b.r b.c 0)
  have h2 := findBlocks_nodup board
  rw [← List.toFinset_card_of_nodup h1, ← List.toFinset_card_of_nodup h2]
  have hset : (findBlocks (setCell board b.r b.c 0)).toFinset
      = (findBlocks board).toFinset.erase b := by
    ext q
    simp only [List.mem_toFinset, Finset.mem_erase]
    rw [mem_findBlocks_setCell_zero hd hb]
    exact and_comm
  rw [hset, Finset.card_erase_of_mem (List.mem_toFinset.2 hb)]
  have hpos : 0 < (findBlocks board).toFinset.card :=
    Finset.card_pos.2 ⟨b, List.mem_toFinset.2 hb⟩
  omega

lemma length_findBlocks_setCell_one {board : Board} {d : Coord}
    (hd : dimsOk board) (hdv : isValidCoord d.r d.c)
    (hd0 : getCell board d.r d.c = 0) :
    (findBlocks (setCell board d.r d.c 1)).length = (findBlocks board).length + 1 := by
  have hnotmem : d ∉ findBlocks board := by
    intro h
    have h1 := (mem_findBlocks.1 h).2
    rw [hd0] at h1
    exact absurd h1 (by decide)
  rw [← List.toFinset_card_of_nodup (findBlocks_nodup _),
    ← List.toFinset_card_of_nodup (findBlocks_nodup board)]
  have hset : (findBlocks (setCell board d.r d.c 1)).toFinset
      = insert d (findBlocks board).toFinset := by
    ext q
    simp only [List.mem_toFinset, Finset.mem_insert]
    exact mem_findBlocks_setCell_one hd hdv
  rw [hset, Finset.card_insert_of_not_mem (fun hh => hnotmem (List.mem_toFinset.1 hh))]

/-! ### Validation in spec terms -/

lemma blocks_cons_of_length_pos {l : List Coord} (h : l ≠ []) :
    ∃ b0 rest, l = b0 :: rest := by
  cases l with
  | nil => exact absurd rfl h
  | cons a t => exact ⟨a, t, rfl⟩

lemma validate_none_iff_spec (board : Board) :
    validateBoard board = none ↔
      dimsOk board ∧ (findBlocks board).length = BLOCK_COUNT ∧
        ∀ p ∈ findBlocks board, ∀ q ∈ findBlocks board, reaches board p q := by
  rw [validate_none_iff]
  constructor
  · rintro ⟨hd, hlen, hcnt⟩
    refine ⟨hd, hlen, ?_⟩
    obtain ⟨b0, rest, hb⟩ := blocks_cons_of_length_pos
      (l := findBlocks board) (by intro hnil; rw [hnil] at hlen; exact absurd hlen (by decide))
    refine (count_head_eq_length_iff hb).1 ?_
    rw [hb, List.head?_cons] at hcnt
    rw [hcnt, hlen]
  · rintro ⟨hd, hlen, hmut⟩
    refine ⟨hd, hlen, ?_⟩
    obtain ⟨b0, rest, hb⟩ := blocks_cons_of_length_pos
      (l := findBlocks board) (by intro hnil; rw [hnil] at hlen; exact absurd hlen (by decide))
    rw [hb, List.head?_cons]
    have hcl := (count_head_eq_length_iff hb).2 hmut
    rw [hcl, hlen]

lemma validate_none_mutual {board : Board} (h : validateBoard board = none) :
    ∀ p ∈ findBlocks board, ∀ q ∈ findBlocks board, reaches board p q :=
  ((validate_none_iff_spec board).1 h).2.2

/-! ### Concrete non-reachability facts (separation invariants) -/

lemma twoIsland_row0 {x : Coord} (hx : reaches twoIslandBoard ⟨0, 0⟩ x) :
    x.r = 0 := by
  refine reaches_closed (fun y => y.r = 0) ?_ rfl hx
  intro p q hp hstep
  have hq := mem_findBlocks.2 hstep.2
  have hbl : findBlocks twoIslandBoard
      = ([⟨0, 0⟩, ⟨0, 1⟩, ⟨0, 2⟩, ⟨0, 3⟩, ⟨0, 4⟩,
          ⟨9, 0⟩, ⟨9, 1⟩, ⟨9, 2⟩, ⟨9, 3⟩, ⟨9, 4⟩] : List Coord) := by decide
  have hn := mem_neighborsOf.1 hstep.1
  rw [hbl] at hq
  simp only [List.mem_cons, List.not_mem_nil, or_false] at hq
  rcases hq with h | h | h | h | h | h | h | h | h | h <;> subst h <;>
    first
    | rfl
    | (rcases hn with hh | hh | hh | hh <;>
        (simp only [Coord.mk.injEq] at hh; obtain ⟨ha, hb⟩ := hh; omega))

lemma twoIsland_not_reach : ¬reaches twoIslandBoard ⟨0, 0⟩ ⟨9, 0⟩ := by
  intro h
  have h0 := twoIsland_row0 h
  exact absurd h0 (by decide)

lemma lineCut_left {x : Coord}
    (hx : reaches (setCell lineBoard (0 : Int) (5 : Int) 0) ⟨0, 0⟩ x) :
    x.r = 0 ∧ x.c ≤ 4 := by
  refine reaches_closed (fun y => y.r = 0 ∧ y.c ≤ 4) ?_ ⟨rfl, by decide⟩ hx
  intro p q hp hstep
  obtain ⟨hp1, hp2⟩ := hp
  have hq := mem_findBlocks.2 hstep.2
  have hbl : findBlocks (setCell lineBoard (0 : Int) (5 : Int) 0)
      = ([⟨0, 0⟩, ⟨0, 1⟩, ⟨0, 2⟩, ⟨0, 3⟩, ⟨0, 4⟩,
          ⟨0, 6⟩, ⟨0, 7⟩, ⟨0, 8⟩, ⟨0, 9⟩] : List Coord) := by decide
  have hn := mem_neighborsOf.1 hstep.1
  rw [hbl] at hq
  simp only [List.mem_cons, List.not_mem_nil, or_false] at hq
  rcases hq with h | h | h | h | h | h | h | h | h <;> subst h <;>
    first
    | exact ⟨rfl, by decide⟩
    | (rcases hn with hh | hh | hh | hh <;>
        (simp only [Coord.mk.injEq] at hh; obtain ⟨ha, hb⟩ := hh; omega))

lemma lineCut_not_reach :
    ¬reaches (setCell lineBoard (0 : Int) (5 : Int) 0) ⟨0, 0⟩ ⟨0, 9⟩ := by
  intro h
  have h0 := (lineCut_left h).2
  exact absurd h0 (by decide)

/-! ### Claim theorems -/

/-- Claim C2 (amended): `validateBoard` returns no error iff the grid is an
array of exactly 10 rows each of length 10, the count of cells equal to `1`
is exactly `K = 10`, and every marked cell is 4-connected-reachable from every
other through marked cells.  Cell values other than `1` are simply treated as
unmarked: no dedicated error is raised for a non-binary cell. -/
theorem claim_C2_validate_iff (board : Board) :
    validateBoard board = none ↔
      dimsOk board ∧ (findBlocks board).length = BLOCK_COUNT ∧
        ∀ p ∈ findBlocks board, ∀ q ∈ findBlocks board, reaches board p q :=
  validate_none_iff_spec board

/-- Claim C2 counterexample: a 10×10 grid holding a cell of value `2`
(neither `0` nor `1`) alongside ten connected `1`s is accepted by
`validateBoard` (result `none`), not rejected with the `MalformedShape`
error the claim predicts. -/
theorem claim_C2_counterexample :
    dimsOk nonBinaryBoard ∧ getCell nonBinaryBoard 5 5 ≠ 0 ∧
      getCell nonBinaryBoard 5 5 ≠ 1 ∧ validateBoard nonBinaryBoard = none := by
  decide

/-- Claim C4 (amended): `countConnectedBlocks` returns `0` when the start
node is absent, and, for a marked in-bounds start cell, returns the number
of marked cells edge-reachable from it through marked cells.  (For a present
but unmarked start it does not return `0`: the start itself is counted.) -/
theorem claim_C4_componentSize :
    (∀ board : Board, countConnectedBlocks board none = 0) ∧
    (∀ (board : Board) (s : Coord), validMarked board s →
      countConnectedBlocks board (some s)
        = Set.ncard {x : Coord | validMarked board x ∧ reaches board s x}) := by
  constructor
  · intro board
    rfl
  · intro board s hs
    obtain ⟨V, hnd, hiff, hcnt⟩ := countConnected_spec board s
    have hset : {x : Coord | validMarked board x ∧ reaches board s x}
        = ↑V.toFinset := by
      ext x
      simp only [Set.mem_setOf_eq, Finset.mem_coe, List.mem_toFinset]
      constructor
      · rintro ⟨_, hr⟩
        exact (hiff x).2 hr
      · intro hx
        have hr := (hiff x).1 hx
        refine ⟨?_, hr⟩
        rcases reaches_validMarked hr with rfl | h
        · exact hs
        · exact h
    rw [hcnt, hset, Set.ncard_coe_Finset, List.toFinset_card_of_nodup hnd]

/-- Claim C4 counterexample: on the all-empty board the start cell `(0,0)` is
unmarked, yet `countConnectedBlocks` returns `1`, not `0` as the claim
states (the start node itself is always dequeued and counted). -/
theorem claim_C4_counterexample :
    getCell emptyBoard 0 0 = 0 ∧
      countConnectedBlocks emptyBoard (some ⟨0, 0⟩) = 1 := by
  decide

/-- Claim C4 witness: the marked-start case of `claim_C4_componentSize`
instantiated on the line board at its marked cell `(0,0)`. -/
theorem claim_C4_witness :
    validMarked lineBoard ⟨0, 0⟩ ∧
      countConnectedBlocks lineBoard (some ⟨0, 0⟩)
        = Set.ncard {x : Coord | validMarked lineBoard x ∧ reaches lineBoard ⟨0, 0⟩ x} :=
  ⟨by decide, claim_C4_componentSize.2 lineBoard ⟨0, 0⟩ (by decide)⟩

/-- Claim C5 (amended): on the row-0 line of ten marked cells, `validateBoard`
accepts, and `findAllValidMoves` returns moves exactly for the two endpoints
`(0,0)` and `(0,9)` (no interior cell contributes a move); the move for
`(0,0)` includes destination `(1,9)` and the move for `(0,9)` includes
destination `(1,0)` (destinations are empty neighbours of the *remaining*
cells, so the row-1 cell below a removed endpoint is not adjacent to the
remaining shape and is not offered under that same endpoint). -/
theorem claim_C5_line_scenario :
    validateBoard lineBoard = none ∧
    (findAllValidMoves lineBoard).map (fun m => m.«from») = ([⟨0, 0⟩, ⟨0, 9⟩] : List Coord) ∧
    (⟨1, 9⟩ : Coord) ∈ ((findAllValidMoves lineBoard).getD 0 ⟨⟨0, 0⟩, []⟩).«to» ∧
    (⟨1, 0⟩ : Coord) ∈ ((findAllValidMoves lineBoard).getD 1 ⟨⟨0, 0⟩, []⟩).«to» := by
  decide

/-- Claim C5 counterexample: in the line scenario the move whose source is
`(0,0)` does **not** contain `(1,0)` among its destinations, and the move for
`(0,9)` does not contain `(1,9)`, contrary to the claim's attribution. -/
theorem claim_C5_counterexample :
    ((findAllValidMoves lineBoard).getD 0 ⟨⟨0, 0⟩, []⟩).«from» = ⟨0, 0⟩ ∧
    (⟨1, 0⟩ : Coord) ∉ ((findAllValidMoves lineBoard).getD 0 ⟨⟨0, 0⟩, []⟩).«to» ∧
    ((findAllValidMoves lineBoard).getD 1 ⟨⟨0, 0⟩, []⟩).«from» = ⟨0, 9⟩ ∧
    (⟨1, 9⟩ : Coord) ∉ ((findAllValidMoves lineBoard).getD 1 ⟨⟨0, 0⟩, []⟩).«to» := by
  decide

/-- Claim C7: every grid accepted by `validateBoard` has exactly
`BLOCK_COUNT = 10` marked cells, and a 10×10 grid with only nine marked
cells is rejected with the block-count error. -/
theorem claim_C7_block_count :
    (∀ board : Board, validateBoard board = none →
      (findBlocks board).length = BLOCK_COUNT) ∧
    validateBoard nineBlockBoard = some "Board must have exactly 10 blocks." := by
  constructor
  · intro board h
    exact ((validate_none_iff board).1 h).2.1
  · decide

/-- Claim C7 witness: the universally quantified half of
`claim_C7_block_count` instantiated at the accepted line board. -/
theorem claim_C7_witness :
    validateBoard lineBoard = none ∧ (findBlocks lineBoard).length = BLOCK_COUNT :=
  ⟨by decide, claim_C7_block_count.1 lineBoard (by decide)⟩

/-- Claim C8: a 10×10 binary grid with exactly ten marked cells that has two
mutually unreachable marked cells is rejected by `validateBoard` with the
`Disconnected` error string. -/
theorem claim_C8_disconnected (board : Board) (p q : Coord)
    (hdims : dimsOk board)
    (_hbin : ∀ row ∈ board, ∀ v ∈ row, v = 0 ∨ v = 1)
    (hlen : (findBlocks board).length = BLOCK_COUNT)
    (hp : p ∈ findBlocks board) (hq : q ∈ findBlocks board)
    (hnr : ¬reaches board p q) :
    validateBoard board = some "All blocks must form a single, continuous shape." := by
  obtain ⟨b0, rest, hb⟩ := blocks_cons_of_length_pos
    (l := findBlocks board) (List.ne_nil_of_mem hp)
  have hh : (findBlocks board).head? = some b0 := by rw [hb]; rfl
  have h3 : countConnectedBlocks board (findBlocks board).head? ≠ BLOCK_COUNT := by
    rw [hh]
    intro hcnt
    have hmut := (count_head_eq_length_iff hb).1 (by rw [hcnt, hlen])
    exact hnr (hmut p hp q hq)
  unfold validateBoard
  rw [if_neg (not_not_intro hdims), if_neg (by simp [hlen]), if_pos h3]

/-- Claim C8 witness: `claim_C8_disconnected` instantiated on the
two-islands board (two groups of five marked cells in rows 0 and 9). -/
theorem claim_C8_witness :
    (dimsOk twoIslandBoard ∧
      (∀ row ∈ twoIslandBoard, ∀ v ∈ row, v = 0 ∨ v = 1) ∧
      (findBlocks twoIslandBoard).length = BLOCK_COUNT ∧
      (⟨0, 0⟩ : Coord) ∈ findBlocks twoIslandBoard ∧
      (⟨9, 0⟩ : Coord) ∈ findBlocks twoIslandBoard ∧
      ¬reaches twoIslandBoard ⟨0, 0⟩ ⟨9, 0⟩) ∧
    validateBoard twoIslandBoard
      = some "All blocks must form a single, continuous shape." :=
  ⟨⟨by decide, by decide, by decide, by decide, by decide, twoIsland_not_reach⟩,
    claim_C8_disconnected twoIslandBoard ⟨0, 0⟩ ⟨9, 0⟩ (by decide) (by decide)
      (by decide) (by decide) (by decide) twoIsland_not_reach⟩

/-- Claim C3 (amended): on a grid accepted by `validateBoard`, every move's
source cell is marked, and every destination is either empty (`0`) on the
grid or is that move's own (just-vacated) source cell — a destination is
required to be empty only on the working copy, and the cleared source always
qualifies. -/
theorem claim_C3_source_dest (G : Board) (hv : validateBoard G = none)
    (m : Move) (hm : m ∈ findAllValidMoves G) (d : Coord) (hd : d ∈ m.«to») :
    getCell G m.«from».r m.«from».c = 1 ∧
      (d = m.«from» ∨ getCell G d.r d.c = 0) := by
  obtain ⟨hdims, _, _⟩ := (validate_none_iff G).1 hv
  obtain ⟨b, hb, hbm⟩ := mem_findAllValidMoves.1 hm
  obtain ⟨hcnt, hmeq, hpos⟩ := moveFor_eq_some hbm
  subst hmeq
  constructor
  · exact (mem_findBlocks.1 hb).2
  · obtain ⟨ob, hob, hn, hvd, h0⟩ := mem_collectDests.1 hd
    by_cases hdb : d = b
    · exact Or.inl (by rw [hdb])
    · right
      have hne : ¬(d.r = b.r ∧ d.c = b.c) := fun hh => hdb (Coord.ext hh.1 hh.2)
      have hbv := (mem_findBlocks.1 hb).1
      rw [getCell_setCell_other 0 hne hbv hvd] at h0
      exact h0

/-- Claim C3 counterexample: the line board is accepted, and the move from
`(0,0)` offers the currently marked cell `(0,0)` itself as a destination —
so a returned destination *can* be marked on the input grid, contrary to the
claim. -/
theorem claim_C3_counterexample :
    validateBoard lineBoard = none ∧
    ((findAllValidMoves lineBoard).getD 0 ⟨⟨0, 0⟩, []⟩) ∈ findAllValidMoves lineBoard ∧
    (⟨0, 0⟩ : Coord) ∈ ((findAllValidMoves lineBoard).getD 0 ⟨⟨0, 0⟩, []⟩).«to» ∧
    getCell lineBoard 0 0 = 1 := by
  decide

/-- Claim C3 witness: `claim_C3_source_dest` instantiated on the line board,
its first enumerated move and the destination `(1,1)`. -/
theorem claim_C3_witness :
    validateBoard lineBoard = none ∧
    ((findAllValidMoves lineBoard).getD 0 ⟨⟨0, 0⟩, []⟩) ∈ findAllValidMoves lineBoard ∧
    (⟨1, 1⟩ : Coord) ∈ ((findAllValidMoves lineBoard).getD 0 ⟨⟨0, 0⟩, []⟩).«to» ∧
    (getCell lineBoard ((findAllValidMoves lineBoard).getD 0 ⟨⟨0, 0⟩, []⟩).«from».r
        ((findAllValidMoves lineBoard).getD 0 ⟨⟨0, 0⟩, []⟩).«from».c = 1 ∧
      ((⟨1, 1⟩ : Coord) = ((findAllValidMoves lineBoard).getD 0 ⟨⟨0, 0⟩, []⟩).«from» ∨
        getCell lineBoard 1 1 = 0)) :=
  ⟨by decide, by decide, by decide,
    claim_C3_source_dest lineBoard (by decide) _ (by decide) ⟨1, 1⟩ (by decide)⟩

/-- Claim C6: on an accepted grid, a marked cell whose removal leaves two
mutually unreachable remaining marked cells (an articulation cell) is never
the source of any enumerated move. -/
theorem claim_C6_articulation (G : Board) (c p q : Coord)
    (_hv : validateBoard G = none)
    (_hc : c ∈ findBlocks G)
    (hp : p ∈ findBlocks (setCell G c.r c.c 0))
    (hq : q ∈ findBlocks (setCell G c.r c.c 0))
    (hnr : ¬reaches (setCell G c.r c.c 0) p q)
    (m : Move) (hm : m ∈ findAllValidMoves G) :
    m.«from» ≠ c := by
  intro hmc
  obtain ⟨b, hb, hbm⟩ := mem_findAllValidMoves.1 hm
  obtain ⟨hcnt, hmeq, hpos⟩ := moveFor_eq_some hbm
  have hbc : b = c := by
    rw [hmeq] at hmc
    simpa using hmc
  subst hbc
  obtain ⟨b0, rest, hbl⟩ := blocks_cons_of_length_pos
    (l := findBlocks (setCell G b.r b.c 0)) (List.ne_nil_of_mem hp)
  rw [hbl, List.head?_cons] at hcnt
  have hmut := (count_head_eq_length_iff hbl).1 (by rw [hbl]; exact hcnt)
  exact hnr (hmut p hp q hq)

/-- Claim C6 witness: `claim_C6_articulation` on the line board at the
interior (articulation) cell `(0,5)`: the first enumerated move's source is
not `(0,5)`. -/
theorem claim_C6_witness :
    validateBoard lineBoard = none ∧
    (⟨0, 5⟩ : Coord) ∈ findBlocks lineBoard ∧
    (⟨0, 0⟩ : Coord) ∈ findBlocks (setCell lineBoard (0 : Int) (5 : Int) 0) ∧
    (⟨0, 9⟩ : Coord) ∈ findBlocks (setCell lineBoard (0 : Int) (5 : Int) 0) ∧
    ¬reaches (setCell lineBoard (0 : Int) (5 : Int) 0) ⟨0, 0⟩ ⟨0, 9⟩ ∧
    ((findAllValidMoves lineBoard).getD 0 ⟨⟨0, 0⟩, []⟩) ∈ findAllValidMoves lineBoard ∧
    ((findAllValidMoves lineBoard).getD 0 ⟨⟨0, 0⟩, []⟩).«from» ≠ ⟨0, 5⟩ :=
  ⟨by decide, by decide, by decide, by decide, lineCut_not_reach, by decide,
    claim_C6_articulation lineBoard ⟨0, 5⟩ ⟨0, 0⟩ ⟨0, 9⟩ (by decide) (by decide)
      (by decide) (by decide) lineCut_not_reach _ (by decide)⟩

/-- Claim C10: on an accepted grid every enumerated move offers its own
source cell among its destinations (the cleared source is an empty cell
adjacent to the remaining shape, because the shape is connected with ten
cells). -/
theorem claim_C10_source_in_dests (G : Board) (hv : validateBoard G = none)
    (m : Move) (hm : m ∈ findAllValidMoves G) :
    m.«from» ∈ m.«to» := by
  obtain ⟨hdims, hlen, _⟩ := (validate_none_iff G).1 hv
  have hmut := validate_none_mutual hv
  obtain ⟨b, hb, hbm⟩ := mem_findAllValidMoves.1 hm
  obtain ⟨hcnt, hmeq, hpos⟩ := moveFor_eq_some hbm
  subst hmeq
  obtain ⟨q, hq, hqb⟩ : ∃ q ∈ findBlocks G, q ≠ b := by
    by_contra hcon
    push_neg at hcon
    have hsub : (findBlocks G).toFinset ⊆ {b} := by
      intro x hx
      rw [Finset.mem_singleton]
      exact hcon x (List.mem_toFinset.1 hx)
    have hcard := Finset.card_le_card hsub
    rw [Finset.card_singleton, List.toFinset_card_of_nodup (findBlocks_nodup G),
      hlen] at hcard
    exact absurd hcard (by decide)
  have hr : reaches G b q := hmut b hb q hq
  rcases Relation.ReflTransGen.cases_head hr with heq | ⟨n, hstep, _⟩
  · exact absurd heq (fun hh => hqb hh.symm)
  · have hnb : n ∈ neighborsOf b := hstep.1
    have hnm : validMarked G n := hstep.2
    have hnneb : n ≠ b := neighborsOf_ne hnb
    have hnt : n ∈ findBlocks (setCell G b.r b.c 0) :=
      (mem_findBlocks_setCell_zero hdims hb).2 ⟨mem_findBlocks.2 hnm, hnneb⟩
    have hbv := (mem_findBlocks.1 hb).1
    have hb0 : getCell (setCell G b.r b.c 0) b.r b.c = 0 :=
      getCell_setCell_same 0 hdims hbv
    exact mem_collectDests.2 ⟨n, hnt, neighborsOf_symm hnb, hbv, hb0⟩

/-- Claim C10 witness: on the line board the first enumerated move (source
`(0,0)`) indeed contains its own source among its destinations. -/
theorem claim_C10_witness :
    validateBoard lineBoard = none ∧
    ((findAllValidMoves lineBoard).getD 0 ⟨⟨0, 0⟩, []⟩) ∈ findAllValidMoves lineBoard ∧
    ((findAllValidMoves lineBoard).getD 0 ⟨⟨0, 0⟩, []⟩).«from»
      ∈ ((findAllValidMoves lineBoard).getD 0 ⟨⟨0, 0⟩, []⟩).«to» :=
  ⟨by decide, by decide,
    claim_C10_source_in_dests lineBoard (by decide) _ (by decide)⟩

/-- Claim C1 (closure): on a grid accepted by `validateBoard`, clearing any
enumerated move's source and setting any one of its destinations yields a
grid that `validateBoard` again accepts (ten marked cells in one
4-connected component). -/
theorem claim_C1_closure (G : Board) (m : Move) (d : Coord)
    (hv : validateBoard G = none) (hm : m ∈ findAllValidMoves G)
    (hd : d ∈ m.«to») :
    validateBoard (applyMove G m.«from» d) = none := by
  obtain ⟨hdims, hlen, _⟩ := (validate_none_iff G).1 hv
  obtain ⟨b, hb, hbm⟩ := mem_findAllValidMoves.1 hm
  obtain ⟨hcnt, hmeq, hpos⟩ := moveFor_eq_some hbm
  subst hmeq
  obtain ⟨ob, hob, hn, hdv, hd0⟩ := mem_collectDests.1 hd
  have hbv := (mem_findBlocks.1 hb).1
  have htdims : dimsOk (setCell G b.r b.c 0) := dimsOk_setCell 0 hdims hbv
  have hfdims : dimsOk (applyMove G b d) := dimsOk_setCell 1 htdims hdv
  have hlen9 : (findBlocks (setCell G b.r b.c 0)).length + 1 = BLOCK_COUNT := by
    rw [length_findBlocks_setCell_zero hdims hb, hlen]
  have hlen10 : (findBlocks (applyMove G b d)).length = BLOCK_COUNT := by
    unfold applyMove
    rw [length_findBlocks_setCell_one htdims hdv hd0]
    omega
  have hrnonempty : findBlocks (setCell G b.r b.c 0) ≠ [] := by
    intro hnil
    rw [hnil] at hlen9
    exact absurd hlen9 (by decide)
  obtain ⟨r0, rrest, hrdec⟩ := blocks_cons_of_length_pos hrnonempty
  have hcnt' := hcnt
  rw [hrdec, List.head?_cons] at hcnt'
  have hmutT : ∀ p ∈ findBlocks (setCell G b.r b.c 0),
      ∀ q ∈ findBlocks (setCell G b.r b.c 0), reaches (setCell G b.r b.c 0) p q := by
    refine (count_head_eq_length_iff hrdec).1 ?_
    rw [hrdec]
    exact hcnt'
  have hmono : ∀ x, validMarked (setCell G b.r b.c 0) x →
      validMarked (applyMove G b d) x := by
    intro x hx
    have hxb : x ∈ findBlocks (setCell G b.r b.c 0) := mem_findBlocks.2 hx
    have hxf : x ∈ findBlocks (applyMove G b d) := by
      unfold applyMove
      exact (mem_findBlocks_setCell_one htdims hdv).2 (Or.inr hxb)
    exact mem_findBlocks.1 hxf
  have hdF : d ∈ findBlocks (applyMove G b d) := by
    unfold applyMove
    exact (mem_findBlocks_setCell_one htdims hdv).2 (Or.inl rfl)
  have hFmem : ∀ x, x ∈ findBlocks (applyMove G b d) ↔
      x = d ∨ x ∈ findBlocks (setCell G b.r b.c 0) := by
    intro x
    unfold applyMove
    exact mem_findBlocks_setCell_one htdims hdv
  have hstep_obd : stepRel (applyMove G b d) ob d := ⟨hn, mem_findBlocks.1 hdF⟩
  have htod : ∀ p ∈ findBlocks (setCell G b.r b.c 0),
      reaches (applyMove G b d) p d := by
    intro p hp
    exact Relation.ReflTransGen.tail (reaches_mono hmono (hmutT p hp ob hob)) hstep_obd
  have hmutF : ∀ p ∈ findBlocks (applyMove G b d),
      ∀ q ∈ findBlocks (applyMove G b d), reaches (applyMove G b d) p q := by
    intro p hp q hq
    rcases (hFmem p).1 hp with rfl | hpT
    · rcases (hFmem q).1 hq with rfl | hqT
      · exact Relation.ReflTransGen.refl
      · exact reaches_symm (mem_findBlocks.1 hq) (htod q hqT)
    · rcases (hFmem q).1 hq with rfl | hqT
      · exact htod p hpT
      · exact reaches_mono hmono (hmutT p hpT q hqT)
  exact (validate_none_iff_spec _).2 ⟨hfdims, hlen10, hmutF⟩

/-- Claim C1 witness: `claim_C1_closure` on the line board, its first
enumerated move (source `(0,0)`) and destination `(1,1)`. -/
theorem claim_C1_witness :
    validateBoard lineBoard = none ∧
    ((findAllValidMoves lineBoard).getD 0 ⟨⟨0, 0⟩, []⟩) ∈ findAllValidMoves lineBoard ∧
    (⟨1, 1⟩ : Coord) ∈ ((findAllValidMoves lineBoard).getD 0 ⟨⟨0, 0⟩, []⟩).«to» ∧
    validateBoard (applyMove lineBoard
      ((findAllValidMoves lineBoard).getD 0 ⟨⟨0, 0⟩, []⟩).«from» ⟨1, 1⟩) = none :=
  ⟨by decide, by decide, by decide,
    claim_C1_closure lineBoard _ ⟨1, 1⟩ (by decide) (by decide) (by decide)⟩

/-! ### Frame reasoning for the heap model -/

lemma copyBoard_foldl_spec :
    ∀ (l : List Nat) (h0 : Heap) (acc : List Nat),
      h0.fresh ≤ (l.foldl (fun acc a =>
          let res := allocRow acc.1 (acc.1.rows a)
          (res.1, acc.2 ++ [res.2])) (h0, acc)).1.fresh ∧
      (∀ b, b < h0.fresh → (l.foldl (fun acc a =>
          let res := allocRow acc.1 (acc.1.rows a)
          (res.1, acc.2 ++ [res.2])) (h0, acc)).1.rows b = h0.rows b) ∧
      (l.foldl (fun acc a =>
          let res := allocRow acc.1 (acc.1.rows a)
          (res.1, acc.2 ++ [res.2])) (h0, acc)).2.length = acc.length + l.length ∧
      (∀ x ∈ (l.foldl (fun acc a =>
          let res := allocRow acc.1 (acc.1.rows a)
          (res.1, acc.2 ++ [res.2])) (h0, acc)).2,
        x ∈ acc ∨ (h0.fresh ≤ x ∧ x < (l.foldl (fun acc a =>
          let res := allocRow acc.1 (acc.1.rows a)
          (res.1, acc.2 ++ [res.2])) (h0, acc)).1.fresh)) := by
  intro l
  induction l with
  | nil =>
    intro h0 acc
    exact ⟨le_refl _, fun b _ => rfl, by simp, fun x hx => Or.inl hx⟩
  | cons a l ih =>
    intro h0 acc
    rw [List.foldl_cons]
    obtain ⟨ih1, ih2, ih3, ih4⟩ :=
      ih ⟨fun x => if x = h0.fresh then h0.rows a else h0.rows x, h0.fresh + 1⟩
        (acc ++ [h0.fresh])
    refine ⟨le_trans (Nat.le_succ _) ih1, ?_, ?_, ?_⟩
    · intro b hb
      have h2' := ih2 b (Nat.lt_succ_of_lt hb)
      have h2'' : (if b = h0.fresh then h0.rows a else h0.rows b) = h0.rows b :=
        if_neg (by omega)
      exact h2'.trans h2''
    · refine ih3.trans ?_
      rw [List.length_append, List.length_singleton, List.length_cons]
      omega
    · intro x hx
      rcases ih4 x hx with hmem | ⟨hge, hlt⟩
      · rcases List.mem_append.1 hmem with h | h
        · exact Or.inl h
        · right
          rw [List.mem_singleton] at h
          subst h
          exact ⟨le_refl _, lt_of_lt_of_le (Nat.lt_succ_self _) ih1⟩
      · exact Or.inr ⟨le_trans (Nat.le_succ _) hge, hlt⟩

lemma copyBoard_spec (h : Heap) (br : BoardRef) :
    h.fresh ≤ (copyBoard h br).1.fresh ∧
    (∀ b, b < h.fresh → (copyBoard h br).1.rows b = h.rows b) ∧
    (copyBoard h br).2.length = br.length ∧
    (∀ x ∈ (copyBoard h br).2, h.fresh ≤ x ∧ x < (copyBoard h br).1.fresh) := by
  obtain ⟨h1, h2, h3, h4⟩ := copyBoard_foldl_spec br h []
  refine ⟨h1, h2, by simpa using h3, ?_⟩
  intro x hx
  rcases h4 x hx with hmem | hgood
  · exact absurd hmem (List.not_mem_nil x)
  · exact hgood

lemma hMoveStep_snd (br : BoardRef) (acc : List Move × Heap) (b : Coord) :
    (hMoveStep br acc b).2
      = writeCell (copyBoard acc.2 br).1 (copyBoard acc.2 br).2 b.r b.c 0 := by
  unfold hMoveStep
  dsimp only
  split_ifs <;> rfl

lemma hMoveStep_frame {br : BoardRef} (hbrlen : br.length = 10)
    {baseFresh : Nat} (acc : List Move × Heap) (b : Coord)
    (hb : b.r.toNat < 10) (hfresh : baseFresh ≤ acc.2.fresh) :
    baseFresh ≤ (hMoveStep br acc b).2.fresh ∧
    ∀ a, a < baseFresh → (hMoveStep br acc b).2.rows a = acc.2.rows a := by
  obtain ⟨hc1, hc2, hc3, hc4⟩ := copyBoard_spec acc.2 br
  have hwfresh : (hMoveStep br acc b).2.fresh = (copyBoard acc.2 br).1.fresh := by
    rw [hMoveStep_snd]
    rfl
  refine ⟨by rw [hwfresh]; exact le_trans hfresh hc1, ?_⟩
  intro a ha
  rw [hMoveStep_snd]
  have hlt : b.r.toNat < (copyBoard acc.2 br).2.length := by
    rw [hc3, hbrlen]
    exact hb
  have hwaddr : (copyBoard acc.2 br).2.getD b.r.toNat 0 ∈ (copyBoard acc.2 br).2 := by
    rw [List.getD_eq_getElem _ _ hlt]
    exact List.getElem_mem hlt
  have hge := (hc4 _ hwaddr).1
  have hane : a ≠ (copyBoard acc.2 br).2.getD b.r.toNat 0 := by omega
  have hwr : (writeCell (copyBoard acc.2 br).1 (copyBoard acc.2 br).2 b.r b.c 0).rows a
      = (copyBoard acc.2 br).1.rows a := by
    unfold writeCell
    simp only
    rw [if_neg hane]
  rw [hwr]
  exact hc2 a (lt_of_lt_of_le ha hfresh)

lemma hFind_foldl_frame {br : BoardRef} (hbrlen : br.length = 10)
    {baseFresh : Nat} :
    ∀ (l : List Coord) (acc : List Move × Heap),
      (∀ b ∈ l, b.r.toNat < 10) →
      baseFresh ≤ acc.2.fresh →
      baseFresh ≤ (l.foldl (hMoveStep br) acc).2.fresh ∧
        ∀ a, a < baseFresh → (l.foldl (hMoveStep br) acc).2.rows a = acc.2.rows a := by
  intro l
  induction l with
  | nil =>
    intro acc _ hfresh
    exact ⟨hfresh, fun a _ => rfl⟩
  | cons b l ih =>
    intro acc hbl hfresh
    rw [List.foldl_cons]
    obtain ⟨hstepf, hstepr⟩ :=
      hMoveStep_frame hbrlen acc b (hbl b (List.mem_cons_self _ _)) hfresh
    obtain ⟨ihf, ihr⟩ :=
      ih (hMoveStep br acc b) (fun x hx => hbl x (List.mem_cons_of_mem _ hx)) hstepf
    refine ⟨ihf, ?_⟩
    intro a ha
    rw [ihr a ha]
    exact hstepr a ha

/-- Claim C9: `validateBoard` performs no store write at all (its heap-level
version returns the store unchanged by construction), and running the
heap-level `findAllValidMoves` leaves every cell of the caller's board
unchanged: all writes go to the freshly allocated working-copy rows. -/
theorem claim_C9_no_mutation (h : Heap) (br : BoardRef)
    (hwf : ∀ a ∈ br, a < h.fresh)
    (hv : validateBoard (readBoard h br) = none) :
    (hValidateBoard h br).2 = h ∧
    readBoard (hFindAllValidMoves h br).2 br = readBoard h br := by
  refine ⟨rfl, ?_⟩
  have hdims := ((validate_none_iff _).1 hv).1
  have hbrlen : br.length = 10 := by
    have hl : (readBoard h br).length = BOARD_SIZE := hdims.1
    rw [readBoard, List.length_map] at hl
    exact hl
  have hblk : ∀ b ∈ findBlocks (readBoard h br), b.r.toNat < 10 := by
    intro b hbmem
    obtain ⟨⟨h1, h2, _, _⟩, _⟩ := mem_findBlocks.1 hbmem
    rw [boardSize_int] at h2
    omega
  obtain ⟨_, hrows⟩ :=
    hFind_foldl_frame hbrlen (findBlocks (readBoard h br)) ([], h) hblk (le_refl _)
  unfold hFindAllValidMoves
  unfold readBoard
  refine List.map_congr_left ?_
  intro a ha
  exact hrows a (hwf a ha)

/-- Claim C9 witness: `claim_C9_no_mutation` on a concrete store holding the
line board at row addresses `0..9`. -/
theorem claim_C9_witness :
    (∀ a ∈ lineBoardRef, a < lineHeap.fresh) ∧
    (hValidateBoard lineHeap lineBoardRef).2 = lineHeap ∧
    readBoard (hFindAllValidMoves lineHeap lineBoardRef).2 lineBoardRef
      = readBoard lineHeap lineBoardRef :=
  ⟨by decide, claim_C9_no_mutation lineHeap lineBoardRef (by decide) (by decide)⟩
